import Mathlib

/-!
# The x86 predecoder session (src/arch/x86/predecoder.hh)

A shallow embedding of the class `X86ISA::Predecoder` as declared in the header:
the session state, the cursor helpers `getNextByte`, `consumeByte`,
`consumeBytes`, the variable-width accumulator `getImmediate`, and the public
operations `reset`, `moreBytes`, `needMoreBytes`, `extMachInstReady`,
`getInstSize` and `getExtMachInst`.

Conventions of the embedding.

* `uint64_t` / `Addr` / `MachInst` values are natural numbers; every operation
  that can leave the 64-bit range is reduced `% 2 ^ 64` where the C++ does so.
* `int` values are integers. Where the C++ converts an unsigned 64-bit value to
  `int` (the cursor in `moreBytes`, `remaining` in `getImmediate`, the result of
  `getInstSize`) the conversion is the explicit truncation `toInt32`.
* Signed `int` arithmetic (`size - collected`, `offset + numBytes`, `toGet * 8`)
  is exact integer arithmetic: overflow of a signed operation is undefined in
  C++ and does not occur on the ranges the statements below are about.
* A shift whose amount is outside `0 .. 63` is undefined in C++; here a shift
  amount is the natural number `n.toNat`, a right shift is the mathematical one
  and a left shift is reduced `% 2 ^ 64`. The only such shift the accumulator
  can make with `0 <= offset <= 8` is the right shift by 64 at `offset = 8`,
  whose result is masked with `mask 0 = 0`.
* A failed `assert` aborts the program: the operation returns `none`.
* The host is little-endian (x86), so byte `j` of a chunk `w` is
  `w / 256 ^ j % 256`.
-/

namespace X86ISA

/-! ## Machine integers -/

/-- Conversion of an integer value to the 32-bit signed `int`: reduction modulo
`2 ^ 32` into the range `[-2 ^ 31, 2 ^ 31)`. -/
def toInt32 (x : Int) : Int := (x + 2147483648) % 4294967296 - 2147483648

/-- Conversion of an integer value to an unsigned 64-bit value (`Addr`,
`uint64_t`, `size_t`): reduction modulo `2 ^ 64`. -/
def toUInt64 (x : Int) : Nat := (x % 18446744073709551616).toNat

/-- Modelled from the spec: `sizeof(MachInst)`, the chunk width; the type
`MachInst` is declared in arch/x86/types.hh, which is not part of the sources at
hand. The spec fixes the fetch chunk as an architecture word of 8 bytes, and
`getImmediate` shifts the chunk as a `uint64_t`. -/
def sizeofMachInst : Int := 8

/-- Modelled from the spec: `mask(nbits)` of base/bitfield.hh, which is not part
of the sources at hand. The accumulator masks the extracted bytes "to exactly
`toGet*8` bits", so `mask nbits` is the word whose low `nbits` bits are set. -/
def mask (nbits : Int) : Nat := 2 ^ nbits.toNat - 1

/-- Byte `j` of the 64-bit word `w` in memory order on the little-endian host. -/
def byteAt (w : Nat) (j : Nat) : Nat := w / 256 ^ j % 256

/-! ## Data model -/

/-- Modelled from the spec: the processor mode tag of arch/x86/types.hh; the
header only names `LongMode`. -/
inductive X86Mode where
  | LongMode
  | LegacyMode
  deriving DecidableEq, Repr

/-- Modelled from the spec: the submode tag of arch/x86/types.hh (the 16/32/64-bit
contexts); the header only names `SixtyFourBitMode`. -/
inductive X86SubMode where
  | SixtyFourBitMode
  | CompatabilityMode
  | ProtectedMode
  | Virtual8086Mode
  | RealMode
  deriving DecidableEq, Repr

/-- Modelled from the spec: the mode/submode tag carried by the record. -/
structure OperatingMode where
  mode : X86Mode
  submode : X86SubMode
  deriving DecidableEq, Repr

/-- Modelled from the spec: the extended machine instruction record of
arch/x86/types.hh, which is not part of the sources at hand: prefix flags, the
mode/submode tag, opcode byte(s) with escape class, the ModRM and SIB bytes, the
displacement value and the immediate value. -/
structure ExtMachInst where
  legacy : Nat
  rex : Nat
  mode : OperatingMode
  escapeClass : Nat
  opcode : Nat
  modRM : Nat
  sib : Nat
  displacement : Nat
  immediate : Nat
  deriving DecidableEq, Repr

/-- Modelled from the spec: the caller's program-counter-state object
(`X86ISA::PCState` of arch/x86/types.hh, not part of the sources at hand): the
current address, the next address and the instruction size it carries. -/
structure PCState where
  pc : Nat
  npc : Nat
  size : Nat
  deriving DecidableEq, Repr

/-- The address of the instruction the program-counter-state points at
(`pc.instAddr()`). -/
def PCState.instAddr (p : PCState) : Nat := p.pc

/-- The states of the decoding state machine (`enum State`). -/
inductive State where
  | ResetState
  | PrefixState
  | OpcodeState
  | ModRMState
  | SIBState
  | DisplacementState
  | ImmediateState
  | ErrorState
  deriving DecidableEq, Repr

/-- The data members of `class Predecoder`, in declaration order. `tc` is the
(opaque) thread-context pointer and `m5Reg` the opaque machine-state value. -/
structure Predecoder where
  tc : Nat
  fetchChunk : Nat
  basePC : Nat
  origPC : Nat
  offset : Int
  emi : ExtMachInst
  m5Reg : Nat
  outOfBytes : Bool
  emiIsReady : Bool
  displacementSize : Int
  immediateSize : Int
  immediateCollected : Int
  state : State
  deriving DecidableEq, Repr

/-! ## Operations of the header -/

/-- The constructor `Predecoder(ThreadContext * _tc)`. The members it does not
initialise (`fetchChunk`, the size counters, the remaining fields of `emi`) keep
whatever the storage `mem` held. -/
def Predecoder.new (mem : Predecoder) (tc : Nat) : Predecoder :=
  { mem with
    tc := tc, basePC := 0, origPC := 0, offset := 0,
    outOfBytes := true, emiIsReady := false,
    state := State.ResetState,
    emi := { mem.emi with
      mode := { mode := X86Mode.LongMode, submode := X86SubMode.SixtyFourBitMode } },
    m5Reg := 0 }

/-- The byte under the cursor: `((uint8_t *)&fetchChunk)[offset]`. -/
def getNextByte (s : Predecoder) : Nat := byteAt s.fetchChunk s.offset.toNat

/-- The member function `consumeByte()`: advance the cursor by one byte. The
assertion compares the `int` cursor with the unsigned `sizeof(MachInst)`, so the
cursor is converted to unsigned and a negative cursor fails it as well. -/
def consumeByte (s : Predecoder) : Option Predecoder :=
  let offset := s.offset + 1
  if 0 ≤ offset ∧ offset ≤ sizeofMachInst then
    some { s with
      offset := offset,
      outOfBytes := if offset = sizeofMachInst then true else s.outOfBytes }
  else none

/-- The member function `consumeBytes(int numBytes)`: advance the cursor by
`numBytes`, with the same assertion as `consumeByte`. -/
def consumeBytes (s : Predecoder) (numBytes : Int) : Option Predecoder :=
  let offset := s.offset + numBytes
  if 0 ≤ offset ∧ offset ≤ sizeofMachInst then
    some { s with
      offset := offset,
      outOfBytes := if offset = sizeofMachInst then true else s.outOfBytes }
  else none

/-- The number of bytes one call of `getImmediate` takes from the chunk: the
local `toGet` after the line `toGet = toGet > remaining ? remaining : toGet`.
`remaining` is `sizeof(MachInst) - offset`, computed unsigned and stored in an
`int`. -/
def getImmediateToGet (s : Predecoder) (collected : Int) (size : Int) : Int :=
  let toGet := size - collected
  let remaining := toInt32 (sizeofMachInst - s.offset)
  if toGet > remaining then remaining else toGet

/-- The member function `getImmediate(int &collected, uint64_t &current, int size)`.
The two reference parameters are passed in by value and their final values are
returned next to the new session state. The left shift reads the member
`immediateCollected` of the session, as the source does. -/
def getImmediate (s : Predecoder) (collected : Int) (current : Nat) (size : Int) :
    Option (Predecoder × Int × Nat) :=
  let toGet := getImmediateToGet s collected size
  -- Shift the wanted bytes all the way to the right
  let partialImm := s.fetchChunk >>> (s.offset * 8).toNat
  -- Mask off what is not wanted
  let partialImm := partialImm &&& mask (toGet * 8)
  -- Shift it over to overlay with the field collected so far
  let partialImm := (partialImm <<< (s.immediateCollected * 8).toNat) % 2 ^ 64
  -- Put it into the field
  let current := current ||| partialImm
  -- Update how many bytes have been collected.
  let collected := collected + toGet
  (consumeBytes s toGet).map fun s' => (s', collected, current)

/-- The call shape `getImmediate(immediateCollected, field, size)` used by the
displacement and immediate states: the reference parameter `collected` is bound
to the session member `immediateCollected`, so the update of `collected` is an
update of that member. -/
def getImmediateOnCounter (s : Predecoder) (current : Nat) (size : Int) :
    Option (Predecoder × Nat) :=
  (getImmediate s s.immediateCollected current size).map
    fun r => ({ r.1 with immediateCollected := r.2.1 }, r.2.2)

/-- The member function `reset()`. -/
def reset (s : Predecoder) : Predecoder := { s with state := State.ResetState }

/-- The member function `reset(const ExtMachInst &old_emi)`. -/
def resetWith (s : Predecoder) (_old_emi : ExtMachInst) : Predecoder := reset s

/-- The member function `getTC()`. -/
def getTC (s : Predecoder) : Nat := s.tc

/-- The member function `setTC(ThreadContext * _tc)`. -/
def setTC (s : Predecoder) (tc : Nat) : Predecoder := { s with tc := tc }

/-- The session state on which `moreBytes(pc, fetchPC, data)` invokes the decode
loop `process()`: the four assignments of the body. The cursor is the unsigned
difference `pc.instAddr() - fetchPC` stored in the `int` member `offset`. -/
def moreBytesEntry (s : Predecoder) (pc : PCState) (fetchPC : Nat) (data : Nat) :
    Predecoder :=
  { s with
    basePC := fetchPC,
    offset :=
      if fetchPC ≥ pc.instAddr then 0
      else toInt32 (toUInt64 ((pc.instAddr : Int) - (fetchPC : Int))),
    fetchChunk := data,
    outOfBytes := false }

/-- The member function `moreBytes(pc, fetchPC, data)`. The decode loop
`process()` is defined in predecoder.cc, which is not part of the sources at
hand; it is a parameter here (it may abort on an assertion). -/
def moreBytes (process : Predecoder → Option Predecoder)
    (s : Predecoder) (pc : PCState) (fetchPC : Nat) (data : Nat) : Option Predecoder :=
  process (moreBytesEntry s pc fetchPC data)

/-- The member function `needMoreBytes()`. -/
def needMoreBytes (s : Predecoder) : Bool := s.outOfBytes

/-- The member function `extMachInstReady()`. -/
def extMachInstReady (s : Predecoder) : Bool := s.emiIsReady

/-- The member function `getInstSize()`: `int size = basePC + offset - origPC`,
computed in unsigned 64-bit arithmetic and stored in an `int`. -/
def getInstSize (s : Predecoder) : Int :=
  toInt32 (toUInt64 ((s.basePC : Int) + s.offset - (s.origPC : Int)))

/-- The member function `getExtMachInst(PCState &nextPC)`: `none` when
`assert(emiIsReady)` fails, otherwise the returned record, the new session state
and the new contents of `nextPC`. -/
def getExtMachInst (s : Predecoder) (nextPC : PCState) :
    Option (ExtMachInst × Predecoder × PCState) :=
  if s.emiIsReady = true then
    let s' := { s with emiIsReady := false }
    if nextPC.size = 0 then
      let size : Nat := toUInt64 (getInstSize s')
      some (s'.emi, s', { nextPC with size := size, npc := (nextPC.pc + size) % 2 ^ 64 })
    else
      some (s'.emi, s', nextPC)
  else none

/-! ## Sequences of cursor operations

The decode loop `process()` is not part of the sources at hand. What it does to
the cursor is described by the operations of the header it is built from; a
decode in progress is a sequence of such operations. -/

/-- One cursor operation of a decode in progress: the three consuming helpers
and the supply of the next chunk (`moreBytes` up to the call of `process()`). -/
inductive Op where
  | consumeByte
  | consumeBytes (numBytes : Int)
  | getImmediate (collected : Int) (current : Nat) (size : Int)
  | moreBytes (pc : PCState) (fetchPC : Nat) (data : Nat)
  deriving DecidableEq, Repr

/-- The session after one operation; `none` when its assertion fails. -/
def Op.exec (s : Predecoder) : Op → Option Predecoder
  | Op.consumeByte => X86ISA.consumeByte s
  | Op.consumeBytes numBytes => X86ISA.consumeBytes s numBytes
  | Op.getImmediate collected current size =>
      (X86ISA.getImmediate s collected current size).map fun r => r.1
  | Op.moreBytes pc fetchPC data => some (moreBytesEntry s pc fetchPC data)

/-- The number of bytes one operation consumes: the amount it asks the cursor to
advance by (`1`, `numBytes`, the `toGet` of the accumulator); supplying a chunk
consumes nothing. -/
def Op.consumed (s : Predecoder) : Op → Int
  | Op.consumeByte => 1
  | Op.consumeBytes numBytes => numBytes
  | Op.getImmediate collected _ size => getImmediateToGet s collected size
  | Op.moreBytes _ _ _ => 0

/-- The supply discipline of a contiguous byte stream: a chunk is supplied only
when the current one is exhausted, its address is the previous `basePC` plus the
chunk width (a representable 64-bit address), and the target address is the
start `origPC` of the instruction in flight. -/
def Op.contiguous (s : Predecoder) : Op → Bool
  | Op.moreBytes pc fetchPC _ =>
      decide (s.offset = sizeofMachInst) && decide ((fetchPC : Int) = s.basePC + sizeofMachInst)
        && decide (fetchPC < 2 ^ 64) && decide (pc.instAddr = s.origPC)
  | _ => true

/-- Run a sequence of operations: the final session and the total number of
bytes consumed, or `none` when an assertion fails on the way. -/
def runOps (s : Predecoder) : List Op → Option (Predecoder × Int)
  | [] => some (s, 0)
  | op :: ops =>
    match op.exec s with
    | none => none
    | some s1 => (runOps s1 ops).map fun r => (r.1, op.consumed s + r.2)

/-- Every chunk supply in the run follows the supply discipline `Op.contiguous`. -/
def contiguousOps (s : Predecoder) : List Op → Bool
  | [] => true
  | op :: ops =>
    op.contiguous s &&
      match op.exec s with
      | none => true
      | some s1 => contiguousOps s1 ops

/-- A run of `n` full chunks: consume the 8 bytes of the current chunk, then
supply the chunk that follows it at `base + 8`, for an instruction that started
at `orig`. -/
def fullChunks (orig : Nat) (base : Nat) : Nat → List Op
  | 0 => []
  | n + 1 =>
    Op.consumeBytes 8 :: Op.moreBytes ⟨orig, 0, 0⟩ (base + 8) 0 :: fullChunks orig (base + 8) n

/-! ## Concrete sessions -/

/-- A record with every field zero, in 64-bit long mode. -/
def emiZero : ExtMachInst :=
  ⟨0, 0, ⟨X86Mode.LongMode, X86SubMode.SixtyFourBitMode⟩, 0, 0, 0, 0, 0, 0⟩

/-- A session in the immediate state on the chunk `data` fetched from `0x1000`,
for an instruction that started at `0x1000`, with the cursor at `offset` and no
byte of the field collected yet. -/
def sessionAt (data : Nat) (offset : Int) : Predecoder :=
  { tc := 0, fetchChunk := data, basePC := 0x1000, origPC := 0x1000, offset := offset,
    emi := emiZero, m5Reg := 0, outOfBytes := false, emiIsReady := false,
    displacementSize := 0, immediateSize := 0, immediateCollected := 0,
    state := State.ImmediateState }

/-- A session in the middle of collecting a 4-byte immediate: two bytes `12 34`
collected so far (`immediateCollected = 2`, partial immediate `0x3412`), with a
1-byte displacement `0x7f` already in the record. -/
def sessionCollecting : Predecoder :=
  { sessionAt 0x3412000000000000 8 with
    outOfBytes := true, immediateSize := 4, immediateCollected := 2, displacementSize := 1,
    emi := { emiZero with displacement := 0x7f, immediate := 0x3412 } }

/-! ## Calls of the header operations -/

/-- One call of an operation defined in the header, with its arguments. -/
inductive Method where
  | reset
  | resetWith (old_emi : ExtMachInst)
  | getTC
  | setTC (tc : Nat)
  | needMoreBytes
  | extMachInstReady
  | getInstSize
  | consumeByte
  | consumeBytes (numBytes : Int)
  | getImmediate (collected : Int) (current : Nat) (size : Int)
  | getExtMachInst (nextPC : PCState)
  deriving DecidableEq, Repr

/-- The session after one call; `none` when an assertion of the call fails. The
queries `getTC`, `needMoreBytes`, `extMachInstReady` and `getInstSize` only read
members (their bodies assign nothing), so the session after them is the session
before them. -/
def Method.after (s : Predecoder) : Method → Option Predecoder
  | Method.reset => some (X86ISA.reset s)
  | Method.resetWith old_emi => some (X86ISA.resetWith s old_emi)
  | Method.getTC => some s
  | Method.setTC tc => some (X86ISA.setTC s tc)
  | Method.needMoreBytes => some s
  | Method.extMachInstReady => some s
  | Method.getInstSize => some s
  | Method.consumeByte => X86ISA.consumeByte s
  | Method.consumeBytes numBytes => X86ISA.consumeBytes s numBytes
  | Method.getImmediate collected current size =>
      (X86ISA.getImmediate s collected current size).map fun r => r.1
  | Method.getExtMachInst nextPC => (X86ISA.getExtMachInst s nextPC).map fun r => r.2.1

/-- The session after `n` consecutive calls of the same operation. -/
def Method.afterCalls (m : Method) : Nat → Predecoder → Option Predecoder
  | 0, s => some s
  | n + 1, s => (m.after s).bind (Method.afterCalls m n)

end X86ISA

/-! # Verification -/

namespace X86ISA

/-! ## Arithmetic of the machine-integer conversions -/

theorem toInt32_of_range (x : Int) (h1 : -2147483648 ≤ x) (h2 : x < 2147483648) :
    toInt32 x = x := by
  unfold toInt32; omega

theorem toInt32_toUInt64 (x : Int) : toInt32 (toUInt64 x) = toInt32 x := by
  unfold toInt32 toUInt64
  have h : (0 : Int) ≤ x % 18446744073709551616 := Int.emod_nonneg _ (by norm_num)
  rw [Int.toNat_of_nonneg h]
  omega

theorem toUInt64_of_range (x : Int) (h1 : 0 ≤ x) (h2 : x < 18446744073709551616) :
    (toUInt64 x : Int) = x := by
  unfold toUInt64
  have h : (0 : Int) ≤ x % 18446744073709551616 := Int.emod_nonneg _ (by norm_num)
  rw [Int.toNat_of_nonneg h]
  omega

/-! ## Bytes of a word -/

theorem mod_pow_eq_sum_bytes (y n : Nat) :
    y % 256 ^ n = ∑ i ∈ Finset.range n, byteAt y i * 256 ^ i := by
  induction n with
  | zero => simp [Nat.mod_one]
  | succ n ih =>
    rw [Finset.sum_range_succ, ← ih, Nat.mod_pow_succ, byteAt, Nat.mul_comm]

theorem byteAt_div (w o i : Nat) : byteAt (w / 256 ^ o) i = byteAt w (o + i) := by
  simp [byteAt, Nat.div_div_eq_div_mul, pow_add]

theorem extract_eq_sum (w o n : Nat) :
    (w >>> (8 * o)) &&& (2 ^ (8 * n) - 1) =
      ∑ i ∈ Finset.range n, byteAt w (o + i) * 256 ^ i := by
  rw [Nat.and_pow_two_sub_one_eq_mod, Nat.shiftRight_eq_div_pow, pow_mul, pow_mul]
  norm_num
  rw [mod_pow_eq_sum_bytes]
  simp [byteAt_div]

theorem sum_bytes_lt (w o n : Nat) :
    ∑ i ∈ Finset.range n, byteAt w (o + i) * 256 ^ i < 256 ^ n := by
  have h := mod_pow_eq_sum_bytes (w / 256 ^ o) n
  simp only [byteAt_div] at h
  rw [← h]
  exact Nat.mod_lt _ (by positivity)

theorem sum_le_split (b : Nat → Nat) (k m : Nat) :
    ∑ i ∈ Finset.range k, b i * 256 ^ i
        + (∑ j ∈ Finset.range m, b (k + j) * 256 ^ j) * 256 ^ k
      = ∑ i ∈ Finset.range (k + m), b i * 256 ^ i := by
  rw [Finset.sum_range_add, Finset.sum_mul]
  congr 1
  apply Finset.sum_congr rfl
  intro j _
  rw [pow_add]; ring

/-! ## One call of the accumulator -/

theorem getImmediateToGet_eq (s : Predecoder) (collected size : Int)
    (h0 : 0 ≤ s.offset) (h8 : s.offset ≤ sizeofMachInst) :
    getImmediateToGet s collected size
      = min (size - collected) (sizeofMachInst - s.offset) := by
  unfold sizeofMachInst at *
  unfold getImmediateToGet
  simp only [sizeofMachInst]
  rw [toInt32_of_range _ (by omega) (by omega)]
  split <;> omega

theorem getImmediate_step (s : Predecoder) (collected : Int) (current : Nat) (size : Int)
    (h0 : 0 ≤ s.offset) (h8 : s.offset ≤ sizeofMachInst) (hc : collected ≤ size) :
    getImmediate s collected current size =
      some ({ s with
              offset := s.offset + min (size - collected) (sizeofMachInst - s.offset),
              outOfBytes :=
                if s.offset + min (size - collected) (sizeofMachInst - s.offset)
                    = sizeofMachInst
                then true else s.outOfBytes },
            collected + min (size - collected) (sizeofMachInst - s.offset),
            current |||
              ((s.fetchChunk >>> (s.offset * 8).toNat
                  &&& mask (min (size - collected) (sizeofMachInst - s.offset) * 8))
                <<< (s.immediateCollected * 8).toNat) % 2 ^ 64) := by
  unfold getImmediate
  simp only [getImmediateToGet_eq s collected size h0 h8]
  unfold consumeBytes
  have h1 : 0 ≤ s.offset + min (size - collected) (sizeofMachInst - s.offset) ∧
      s.offset + min (size - collected) (sizeofMachInst - s.offset) ≤ sizeofMachInst := by
    unfold sizeofMachInst at *; omega
  simp only [h1, and_self, if_true, Option.map_some']

theorem getImmediate_resume (s : Predecoder) (o c n : Nat) (v : Nat) (size : Int)
    (ho : s.offset = o) (hfit : o + n ≤ 8) (hcn : c + n ≤ 8)
    (hic : s.immediateCollected = c)
    (hn : min (size - c) (sizeofMachInst - s.offset) = n) (hv : v < 256 ^ c) :
    getImmediate s c v size =
      some ({ s with
              offset := ((o + n : Nat) : Int),
              outOfBytes := if o + n = 8 then true else s.outOfBytes },
            ((c + n : Nat) : Int),
            v + (∑ i ∈ Finset.range n, byteAt s.fetchChunk (o + i) * 256 ^ i) * 256 ^ c) := by
  have hcs : (c : Int) ≤ size := by unfold sizeofMachInst at hn; omega
  rw [getImmediate_step s c v size (by omega) (by unfold sizeofMachInst; omega) hcs,
    hn, ho, hic]
  have hsh : ((o : Int) * 8).toNat = 8 * o := by omega
  have hsc : ((c : Int) * 8).toNat = 8 * c := by omega
  have hmk : mask ((n : Int) * 8) = 2 ^ (8 * n) - 1 := by
    unfold mask
    have : ((n : Int) * 8).toNat = 8 * n := by omega
    rw [this]
  have hlt : (∑ i ∈ Finset.range n, byteAt s.fetchChunk (o + i) * 256 ^ i) * 256 ^ c
      < 2 ^ 64 := by
    calc _ < 256 ^ n * 256 ^ c :=
          Nat.mul_lt_mul_of_pos_right (sum_bytes_lt _ _ _) (by positivity)
      _ = 256 ^ (n + c) := (pow_add _ _ _).symm
      _ ≤ 256 ^ 8 := Nat.pow_le_pow_right (by norm_num) (by omega)
      _ = 2 ^ 64 := by norm_num
  have e1 : ((o : Int) + n = sizeofMachInst) ↔ (o + n = 8) := by
    unfold sizeofMachInst; omega
  have h256 : (256 : Nat) ^ c = 2 ^ (8 * c) := by rw [pow_mul]; norm_num
  rw [hsh, hsc, hmk, extract_eq_sum, Nat.shiftLeft_eq, ← h256, Nat.mod_eq_of_lt hlt]
  have hor : v ||| (∑ i ∈ Finset.range n, byteAt s.fetchChunk (o + i) * 256 ^ i) * 256 ^ c
      = v + (∑ i ∈ Finset.range n, byteAt s.fetchChunk (o + i) * 256 ^ i) * 256 ^ c := by
    rw [h256] at hv ⊢
    rw [Nat.lor_comm, Nat.mul_comm, ← Nat.mul_add_lt_is_or hv, Nat.add_comm]
  rw [hor]
  simp only [e1, Nat.cast_add]

theorem getImmediateOnCounter_resume (s : Predecoder) (o c n : Nat) (v : Nat) (size : Int)
    (ho : s.offset = o) (hfit : o + n ≤ 8) (hcn : c + n ≤ 8)
    (hic : s.immediateCollected = c)
    (hn : min (size - c) (sizeofMachInst - s.offset) = n) (hv : v < 256 ^ c) :
    getImmediateOnCounter s v size =
      some ({ s with
              offset := ((o + n : Nat) : Int),
              outOfBytes := if o + n = 8 then true else s.outOfBytes,
              immediateCollected := ((c + n : Nat) : Int) },
            v + (∑ i ∈ Finset.range n, byteAt s.fetchChunk (o + i) * 256 ^ i) * 256 ^ c) := by
  unfold getImmediateOnCounter
  rw [hic, getImmediate_resume s o c n v size ho hfit hcn hic hn hv]
  rfl

/-! ## Runs of cursor operations -/

theorem exec_invariant (s s1 : Predecoder) (op : Op)
    (hor : (s.origPC : Int) ≤ s.basePC + sizeofMachInst)
    (hex : op.exec s = some s1) (hct : op.contiguous s = true) :
    (s1.basePC : Int) + s1.offset - s1.origPC
        = s.basePC + s.offset - s.origPC + op.consumed s ∧
      0 ≤ s1.offset ∧ s1.offset ≤ sizeofMachInst ∧
      (s1.origPC : Int) ≤ s1.basePC + sizeofMachInst := by
  have hcb : ∀ n : Int, consumeBytes s n = some s1 →
      (s1.basePC : Int) + s1.offset - s1.origPC = s.basePC + s.offset - s.origPC + n ∧
        0 ≤ s1.offset ∧ s1.offset ≤ sizeofMachInst ∧
        (s1.origPC : Int) ≤ s1.basePC + sizeofMachInst := by
    intro n h
    unfold consumeBytes at h
    simp only at h
    split at h
    · rename_i hr
      cases h
      simp only
      unfold sizeofMachInst at *
      omega
    · cases h
  cases op with
  | consumeByte => exact hcb 1 hex
  | consumeBytes numBytes => exact hcb numBytes hex
  | getImmediate collected current size =>
    simp only [Op.exec, X86ISA.getImmediate, Option.map_map, Option.map_eq_some'] at hex
    obtain ⟨s2, hs2, rfl⟩ := hex
    exact hcb _ hs2
  | moreBytes pc fetchPC data =>
    simp only [Op.exec, Option.some.injEq] at hex
    simp only [Op.contiguous, Bool.and_eq_true, decide_eq_true_eq] at hct
    obtain ⟨⟨⟨hoff, hf⟩, _⟩, hpc⟩ := hct
    subst hex
    have hge : fetchPC ≥ pc.instAddr := by
      rw [hpc]; unfold sizeofMachInst at *; omega
    simp only [moreBytesEntry, hge, if_true, Op.consumed]
    unfold sizeofMachInst at *
    omega

theorem runOps_invariant (ops : List Op) :
    ∀ (s : Predecoder) (r : Predecoder × Int),
      0 ≤ s.offset → s.offset ≤ sizeofMachInst →
      (s.origPC : Int) ≤ s.basePC + sizeofMachInst →
      runOps s ops = some r → contiguousOps s ops = true →
      (r.1.basePC : Int) + r.1.offset - r.1.origPC
          = s.basePC + s.offset - s.origPC + r.2 ∧
        0 ≤ r.1.offset ∧ r.1.offset ≤ sizeofMachInst ∧
        (r.1.origPC : Int) ≤ r.1.basePC + sizeofMachInst := by
  induction ops with
  | nil =>
    intro s r h0 h8 hor hrun _
    simp only [runOps, Option.some.injEq] at hrun
    subst hrun
    exact ⟨by simp, h0, h8, hor⟩
  | cons op ops ih =>
    intro s r h0 h8 hor hrun hct
    simp only [runOps] at hrun
    simp only [contiguousOps, Bool.and_eq_true] at hct
    cases hex : op.exec s with
    | none => simp [hex] at hrun
    | some s1 =>
      simp only [hex, Option.map_eq_some'] at hrun hct
      obtain ⟨r1, hr1, rfl⟩ := hrun
      obtain ⟨e, a, b, c⟩ := exec_invariant s s1 op hor hex hct.1
      obtain ⟨e2, a2, b2, c2⟩ := ih s1 r1 a b c hr1 hct.2
      refine ⟨?_, a2, b2, c2⟩
      simp only
      omega

theorem runOps_getInstSize (s : Predecoder) (ops : List Op) (r : Predecoder × Int)
    (h0 : 0 ≤ s.offset) (h8 : s.offset ≤ sizeofMachInst)
    (horig : (s.origPC : Int) = s.basePC + s.offset)
    (hrun : runOps s ops = some r) (hct : contiguousOps s ops = true) :
    getInstSize r.1 = toInt32 r.2 ∧ -8 ≤ r.2 := by
  obtain ⟨e, a, b, c⟩ := runOps_invariant ops s r h0 h8
    (by unfold sizeofMachInst at *; omega) hrun hct
  unfold getInstSize
  rw [toInt32_toUInt64, e]
  unfold sizeofMachInst at *
  constructor
  · congr 1; omega
  · omega

theorem fullChunks_run (orig : Nat) (n : Nat) :
    ∀ (base : Nat) (s : Predecoder), s.offset = 0 → s.basePC = base → s.origPC = orig →
      orig ≤ base + 8 → base + 8 * n < 2 ^ 64 →
      ∃ s1, runOps s (fullChunks orig base n) = some (s1, ((8 * n : Nat) : Int)) ∧
        s1.basePC = base + 8 * n ∧ s1.offset = 0 ∧ s1.origPC = orig ∧
        contiguousOps s (fullChunks orig base n) = true := by
  induction n with
  | zero =>
    intro base s hoff hb ho _ _
    exact ⟨s, by simp [fullChunks, runOps], by simpa using hb, hoff, ho,
      by simp [fullChunks, contiguousOps]⟩
  | succ n ih =>
    intro base s hoff hb ho hle hlt
    have hc : consumeBytes s 8
        = some { s with offset := 8, outOfBytes := true } := by
      simp [consumeBytes, hoff, sizeofMachInst]
    obtain ⟨s1, hrun, hb1, hoff1, ho1, hct1⟩ :=
      ih (base + 8)
        (moreBytesEntry { s with offset := 8, outOfBytes := true } ⟨orig, 0, 0⟩ (base + 8) 0)
        (by simp only [moreBytesEntry, PCState.instAddr]; rw [if_pos (by omega)])
        rfl ho (by omega) (by omega)
    refine ⟨s1, ?_, by omega, hoff1, ho1, ?_⟩
    · simp only [fullChunks, runOps, Op.exec, hc, hrun, Option.map_some', Op.consumed]
      congr 2
      push_cast
      ring
    · simp only [fullChunks, contiguousOps, Op.exec, hc, hct1, Op.contiguous,
        Bool.and_true, Bool.true_and, Bool.and_eq_true, decide_eq_true_eq]
      refine ⟨⟨⟨rfl, ?_⟩, by omega⟩, by simp only [PCState.instAddr, ho]⟩
      simp only [hb, sizeofMachInst]
      push_cast
      rfl

/-! ## The variable-width accumulator -/

/-- C1 (cross-chunk determinism of the accumulator). For a field width `size` in
{1, 2, 4, 8}, a byte sequence `b 0, ..., b (size - 1)` and a split point
`0 < k < size`: running `getImmediate` on the session counter
`immediateCollected` (0 at the start, field value 0) on a chunk whose last `k`
bytes are the first `k` bytes of the sequence (cursor `chunkWidth - k`), then, after
`moreBytes` has supplied a second chunk that starts with the remaining
`size - k` bytes (cursor 0), running it again on the value collected so far,
leaves the counter at `size` and the same field value as one call on a chunk that
holds the `size` bytes contiguously at any cursor `o` with `o + size` within the
chunk. After the first call the session asks for more bytes with `k` bytes
collected. -/
theorem getImmediate_cross_chunk (s t : Predecoder) (pc : PCState) (fetchPC chunk2 : Nat)
    (size k o : Nat) (b : Nat → Nat)
    (hsize : size = 1 ∨ size = 2 ∨ size = 4 ∨ size = 8)
    (hk : 0 < k) (hks : k < size)
    (hs_off : s.offset = sizeofMachInst - k) (hs_ic : s.immediateCollected = 0)
    (hb1 : ∀ i, i < k → byteAt s.fetchChunk (8 - k + i) = b i)
    (hpc : pc.instAddr ≤ fetchPC)
    (hb2 : ∀ j, j < size - k → byteAt chunk2 j = b (k + j))
    (ht_off : t.offset = o) (hfit : (o : Int) + size ≤ sizeofMachInst)
    (ht_ic : t.immediateCollected = 0)
    (hb : ∀ i, i < size → byteAt t.fetchChunk (o + i) = b i) :
    ∃ s1 v1 s2 v2 t1 v,
      getImmediateOnCounter s 0 size = some (s1, v1) ∧
      s1.immediateCollected = k ∧ needMoreBytes s1 = true ∧
      getImmediateOnCounter (moreBytesEntry s1 pc fetchPC chunk2) v1 size = some (s2, v2) ∧
      getImmediateOnCounter t 0 size = some (t1, v) ∧
      s2.immediateCollected = size ∧ t1.immediateCollected = size ∧ v2 = v := by
  have hs8 : size ≤ 8 := by omega
  have h1 := getImmediateOnCounter_resume s (8 - k) 0 k 0 size
    (by rw [hs_off]; unfold sizeofMachInst; omega) (by omega) (by omega)
    (by simpa using hs_ic) (by rw [hs_off]; unfold sizeofMachInst; push_cast; omega)
    (by norm_num)
  have h3 := getImmediateOnCounter_resume t o 0 size 0 size ht_off
    (by unfold sizeofMachInst at hfit; omega) (by omega) (by simpa using ht_ic)
    (by rw [ht_off]; unfold sizeofMachInst at *; push_cast; omega) (by norm_num)
  have hv1 : (0 : Nat) + (∑ i ∈ Finset.range k, byteAt s.fetchChunk (8 - k + i) * 256 ^ i)
      * 256 ^ 0 = ∑ i ∈ Finset.range k, b i * 256 ^ i := by
    rw [pow_zero, mul_one, zero_add]
    exact Finset.sum_congr rfl fun i hi => by rw [hb1 i (Finset.mem_range.mp hi)]
  have hv : (0 : Nat) + (∑ i ∈ Finset.range size, byteAt t.fetchChunk (o + i) * 256 ^ i)
      * 256 ^ 0 = ∑ i ∈ Finset.range size, b i * 256 ^ i := by
    rw [pow_zero, mul_one, zero_add]
    exact Finset.sum_congr rfl fun i hi => by rw [hb i (Finset.mem_range.mp hi)]
  rw [hv1] at h1
  rw [hv] at h3
  have hlt1 : ∑ i ∈ Finset.range k, b i * 256 ^ i < 256 ^ k := by
    have h := sum_bytes_lt s.fetchChunk (8 - k) k
    rwa [Finset.sum_congr rfl fun i hi => by rw [hb1 i (Finset.mem_range.mp hi)]] at h
  have h2 := getImmediateOnCounter_resume
    (moreBytesEntry
      { s with
        offset := ((8 - k + k : Nat) : Int),
        outOfBytes := if 8 - k + k = 8 then true else s.outOfBytes,
        immediateCollected := ((0 + k : Nat) : Int) } pc fetchPC chunk2)
    0 k (size - k) (∑ i ∈ Finset.range k, b i * 256 ^ i) size
    (by simp [moreBytesEntry, hpc]) (by omega) (by omega)
    (by simp [moreBytesEntry])
    (by simp only [moreBytesEntry, hpc, ge_iff_le, if_true]; unfold sizeofMachInst
        push_cast; omega)
    hlt1
  have hv2 : ∑ i ∈ Finset.range k, b i * 256 ^ i
      + (∑ i ∈ Finset.range (size - k), byteAt
          (moreBytesEntry
            { s with
              offset := ((8 - k + k : Nat) : Int),
              outOfBytes := if 8 - k + k = 8 then true else s.outOfBytes,
              immediateCollected := ((0 + k : Nat) : Int) } pc fetchPC chunk2).fetchChunk
          (0 + i) * 256 ^ i) * 256 ^ k
      = ∑ i ∈ Finset.range size, b i * 256 ^ i := by
    have e : size = k + (size - k) := by omega
    conv_rhs => rw [e]
    rw [← sum_le_split]
    congr 2
    exact Finset.sum_congr rfl fun j hj => by
      simp only [moreBytesEntry, zero_add]
      rw [hb2 j (Finset.mem_range.mp hj)]
  rw [hv2] at h2
  refine ⟨_, _, _, _, _, _, h1, ?_, ?_, h2, h3, ?_, ?_, rfl⟩
  · simp
  · have : 8 - k + k = 8 := by omega
    simp [needMoreBytes, this]
  · simp only [Nat.cast_inj]; omega
  · simp

/-- Witness for C1: the 4-byte field `78 56 34 12` split after its first byte: the
last byte of the first chunk and the first three bytes of the second chunk give
the same value as the four bytes at the start of one chunk. -/
theorem getImmediate_cross_chunk_witness :
    ∃ s1 v1 s2 v2 t1 v,
      getImmediateOnCounter (sessionAt 0x7800000000000000 7) 0 4 = some (s1, v1) ∧
      s1.immediateCollected = 1 ∧ needMoreBytes s1 = true ∧
      getImmediateOnCounter (moreBytesEntry s1 ⟨0x1000, 0, 0⟩ 0x1008 0x123456) v1 4
        = some (s2, v2) ∧
      getImmediateOnCounter (sessionAt 0x12345678 0) 0 4 = some (t1, v) ∧
      s2.immediateCollected = 4 ∧ t1.immediateCollected = 4 ∧ v2 = v :=
  getImmediate_cross_chunk (sessionAt 0x7800000000000000 7) (sessionAt 0x12345678 0)
    ⟨0x1000, 0, 0⟩ 0x1008 0x123456 4 1 0 (fun i => byteAt 0x12345678 i)
    (by decide) (by decide) (by decide) (by decide) rfl (by decide) (by decide)
    (by decide) rfl (by decide) rfl (by decide)

/-- C2 (little-endian field value). For a field width `size` in {1, 2, 4, 8}, a
cursor `o` with `o + size <= chunkWidth` and any chunk, one call of
`getImmediate` with `collected = immediateCollected = 0` and field value 0
returns `collected = size`, leaves the cursor at `o + size`, and returns the
field value `sum over i < size of byte[o + i] * 256 ^ i`, where `byte[j]` is the
byte `getNextByte` reads from the chunk at cursor `j`. -/
theorem getImmediate_little_endian (s : Predecoder) (o size : Nat)
    (hsize : size = 1 ∨ size = 2 ∨ size = 4 ∨ size = 8)
    (ho : s.offset = o) (hfit : (o : Int) + size ≤ sizeofMachInst)
    (hic : s.immediateCollected = 0) :
    ∃ s1, getImmediate s 0 0 size
        = some (s1, (size : Int),
            ∑ i ∈ Finset.range size,
              getNextByte { s with offset := ((o + i : Nat) : Int) } * 256 ^ i) ∧
      s1.offset = (o : Int) + size := by
  have h := getImmediate_resume s o 0 size 0 size ho
    (by unfold sizeofMachInst at hfit; omega) (by omega) (by simpa using hic)
    (by rw [ho]; unfold sizeofMachInst at *; push_cast; omega) (by norm_num)
  simp only [Nat.cast_zero, zero_add, pow_zero, mul_one] at h
  have hb : ∀ i : Nat, getNextByte { s with offset := ((o + i : Nat) : Int) }
      = byteAt s.fetchChunk (o + i) := fun i => by
    simp only [getNextByte, Int.toNat_ofNat]
  simp only [hb]
  exact ⟨_, h, by simp⟩

/-- Witness for C2: the chunk with bytes `[0xB0, 0x05, 0, ...]`, cursor 1, a 1-byte
immediate: the immediate is 5 and the cursor moves to 2. -/
theorem getImmediate_little_endian_witness :
    ∃ s1, getImmediate (sessionAt 0x05B0 1) 0 0 1 = some (s1, 1, 5) ∧ s1.offset = 2 := by
  have h := getImmediate_little_endian (sessionAt 0x05B0 1) 1 1 (by decide) rfl
    (by decide) rfl
  simpa [getNextByte, byteAt, sessionAt] using h

/-! ## Instruction size -/

/-- Counterexample to C4 as stated: an instruction that starts at `0x1000` at
cursor 0 and consumes `2 ^ 28` full chunks, each exhausted chunk followed by the
supply of the chunk at the previous `basePC + chunkWidth` with target `origPC`.
The run consumes `2 ^ 31` bytes, and `getInstSize()`, an `int`, returns
`-2 ^ 31`. -/
theorem getInstSize_wraps_after_full_chunks :
    0 ≤ (sessionAt 0 0).offset ∧ (sessionAt 0 0).offset ≤ sizeofMachInst ∧
    ((sessionAt 0 0).origPC : Int) = (sessionAt 0 0).basePC + (sessionAt 0 0).offset ∧
    contiguousOps (sessionAt 0 0) (fullChunks 0x1000 0x1000 268435456) = true ∧
    ∃ r, runOps (sessionAt 0 0) (fullChunks 0x1000 0x1000 268435456) = some r ∧
      r.2 = 2147483648 ∧ getInstSize r.1 = -2147483648 ∧ getInstSize r.1 ≠ r.2 := by
  obtain ⟨s1, hrun, _, _, _, hct⟩ := fullChunks_run 0x1000 268435456 0x1000 (sessionAt 0 0)
    rfl rfl rfl (by norm_num) (by norm_num)
  have hsz := (runOps_getInstSize (sessionAt 0 0) _ _ (by decide) (by decide) (by decide)
    hrun hct).1
  have h2 : (((8 * 268435456 : Nat) : Int)) = 2147483648 := by norm_num
  simp only [h2] at hsz hrun
  have h3 : toInt32 2147483648 = -2147483648 := by decide
  rw [h3] at hsz
  refine ⟨by decide, by decide, by decide, hct, _, hrun, rfl, hsz, ?_⟩
  rw [hsz]
  show (-2147483648 : Int) ≠ 2147483648
  decide

/-- C4, amended (size computation). If an instruction starts with
`origPC = basePC + o` at cursor `o` (`0 <= o <= chunkWidth`) and the decoder then
consumes bytes through `consumeByte`, `consumeBytes` and `getImmediate` without
failing an assertion, every exhausted chunk being followed by a `moreBytes` whose
chunk address is the previous `basePC + chunkWidth` and whose target is `origPC`,
then, for every number of chunks, `getInstSize()` is the total number of bytes
consumed truncated to `int`; it equals that total whenever the total is below
`2 ^ 31`. -/
theorem getInstSize_eq_consumed (s : Predecoder) (ops : List Op) (r : Predecoder × Int)
    (h0 : 0 ≤ s.offset) (h8 : s.offset ≤ sizeofMachInst)
    (horig : (s.origPC : Int) = s.basePC + s.offset)
    (hrun : runOps s ops = some r) (hct : contiguousOps s ops = true) :
    getInstSize r.1 = toInt32 r.2 ∧ (r.2 < 2147483648 → getInstSize r.1 = r.2) := by
  obtain ⟨h, hlow⟩ := runOps_getInstSize s ops r h0 h8 horig hrun hct
  refine ⟨h, fun hlt => ?_⟩
  rw [h, toInt32_of_range _ (by omega) hlt]

/-- Witness for C4, amended: from cursor 0 at `0x1000`, six bytes are consumed, a
4-byte immediate takes the last two bytes of the chunk, the chunk at `0x1008` is
supplied and the immediate takes its first two bytes: ten bytes consumed,
`getInstSize()` is 10. -/
theorem getInstSize_eq_consumed_witness :
    ∃ r, runOps (sessionAt 0 0)
        [Op.consumeBytes 6, Op.getImmediate 0 0 4,
          Op.moreBytes ⟨0x1000, 0, 0⟩ 0x1008 0, Op.getImmediate 2 0 4] = some r ∧
      r.2 = 10 ∧ getInstSize r.1 = 10 := by
  have hrun : runOps (sessionAt 0 0)
      [Op.consumeBytes 6, Op.getImmediate 0 0 4,
        Op.moreBytes ⟨0x1000, 0, 0⟩ 0x1008 0, Op.getImmediate 2 0 4]
      = some ({ sessionAt 0 0 with basePC := 0x1008, offset := 2 }, 10) := by decide
  exact ⟨_, hrun, rfl,
    (getInstSize_eq_consumed (sessionAt 0 0) _ _ (by decide) (by decide) (by decide)
      hrun (by decide)).2 (by decide)⟩

/-! ## Retrieval -/

/-- C3 (retrieval stamps the size). On a ready session, when the caller's
program-counter-state carries size 0, `getExtMachInst` succeeds and returns the
record `emi`; it sets the size of the program-counter-state to the value
`getInstSize()` returns (converted to an address) and its next-address to `pc`
plus that size (in 64-bit address arithmetic), and leaves its `pc` unchanged.
When `origPC <= basePC + offset` and the difference fits an `int`, the value
`getInstSize()` returns and the stamped size are `basePC + offset - origPC`, and
the next-address is exactly `pc` plus it when that sum is a 64-bit address. -/
theorem getExtMachInst_stamps_size (s : Predecoder) (nextPC : PCState)
    (hready : extMachInstReady s = true) (hsize : nextPC.size = 0) :
    getExtMachInst s nextPC
      = some (s.emi, { s with emiIsReady := false },
          { pc := nextPC.pc,
            npc := (nextPC.pc + toUInt64 (getInstSize s)) % 2 ^ 64,
            size := toUInt64 (getInstSize s) }) ∧
    ((s.origPC : Int) ≤ s.basePC + s.offset →
      (s.basePC : Int) + s.offset - s.origPC < 2147483648 →
        getInstSize s = s.basePC + s.offset - s.origPC ∧
        (toUInt64 (getInstSize s) : Int) = s.basePC + s.offset - s.origPC ∧
        (nextPC.pc + toUInt64 (getInstSize s) < 2 ^ 64 →
          (nextPC.pc + toUInt64 (getInstSize s)) % 2 ^ 64
            = nextPC.pc + toUInt64 (getInstSize s))) := by
  unfold extMachInstReady at hready
  have hg2 : getInstSize { s with emiIsReady := false } = getInstSize s := rfl
  constructor
  · simp only [getExtMachInst, hready, hsize, if_true, hg2]
  · intro h1 h2
    have hg : getInstSize s = s.basePC + s.offset - s.origPC := by
      unfold getInstSize
      rw [toInt32_toUInt64, toInt32_of_range _ (by omega) h2]
    exact ⟨hg, by rw [hg, toUInt64_of_range _ (by omega) (by omega)],
      fun h3 => Nat.mod_eq_of_lt h3⟩

/-- Witness for C3: a ready session on the chunk at `0x1000` with the cursor at 2,
for an instruction that started at `0x1000`; retrieval into a program-counter-state
at `0x1000` with size 0 stamps size 2 and next-address `0x1002`. -/
theorem getExtMachInst_stamps_size_witness :
    getExtMachInst { sessionAt 0x05B0 2 with emiIsReady := true } ⟨0x1000, 0, 0⟩
      = some (emiZero, { sessionAt 0x05B0 2 with emiIsReady := false },
          ⟨0x1000, 0x1002, 2⟩) := by
  have h := (getExtMachInst_stamps_size
    { sessionAt 0x05B0 2 with emiIsReady := true } ⟨0x1000, 0, 0⟩ rfl rfl).1
  have e : toUInt64 (getInstSize { sessionAt 0x05B0 2 with emiIsReady := true }) = 2 := by
    simp [getInstSize, sessionAt, toInt32, toUInt64]
  rw [e] at h
  exact h

/-- C10 (one-shot retrieval). `getExtMachInst` fails its assertion exactly when
`extMachInstReady()` is false beforehand; when it succeeds,
`extMachInstReady()` is false afterwards, and a second retrieval on the resulting
session fails whatever program-counter-state it is given. -/
theorem getExtMachInst_one_shot (s : Predecoder) (nextPC : PCState) :
    (getExtMachInst s nextPC = none ↔ extMachInstReady s = false) ∧
    ∀ r, getExtMachInst s nextPC = some r →
      extMachInstReady r.2.1 = false ∧ ∀ nextPC2, getExtMachInst r.2.1 nextPC2 = none := by
  unfold extMachInstReady
  constructor
  · unfold getExtMachInst
    cases s.emiIsReady <;> by_cases hz : nextPC.size = 0 <;> simp [hz]
  · intro r hr
    have hf : r.2.1.emiIsReady = false := by
      unfold getExtMachInst at hr
      cases hre : s.emiIsReady
      · simp [hre] at hr
      · by_cases hz : nextPC.size = 0
        · simp only [hre, hz, if_true, Option.some.injEq] at hr
          rw [← hr]
        · simp only [hre, hz, if_true, if_false, Option.some.injEq] at hr
          rw [← hr]
    refine ⟨hf, fun nextPC2 => ?_⟩
    unfold getExtMachInst
    simp [hf]

/-- Witness for C10: on a ready session the first retrieval succeeds, the session
is no longer ready, and a second retrieval fails. -/
theorem getExtMachInst_one_shot_witness :
    getExtMachInst { sessionAt 0x05B0 2 with emiIsReady := true } ⟨0x1000, 0, 0⟩ ≠ none ∧
    getExtMachInst { sessionAt 0x05B0 2 with emiIsReady := false } ⟨0x1000, 0x1002, 2⟩
      = none :=
  ⟨fun h => Bool.noConfusion
      ((getExtMachInst_one_shot { sessionAt 0x05B0 2 with emiIsReady := true }
        ⟨0x1000, 0, 0⟩).1.mp h),
    ((getExtMachInst_one_shot { sessionAt 0x05B0 2 with emiIsReady := true }
        ⟨0x1000, 0, 0⟩).2
      (emiZero, { sessionAt 0x05B0 2 with emiIsReady := false }, ⟨0x1000, 0x1002, 2⟩)
      (by simp [getExtMachInst, sessionAt, getInstSize, toInt32, toUInt64])).2
      ⟨0x1000, 0x1002, 2⟩⟩

/-! ## Chunk supply -/

/-- C9 (bookkeeping of `moreBytes`). `moreBytes` invokes the decode loop on a state
that has `outOfBytes = false`, `basePC = fetchPC` and `fetchChunk = data`, and has
`origPC`, `state`, `emiIsReady`, the record `emi` and the counters
`displacementSize`, `immediateSize`, `immediateCollected` (as well as `tc` and
`m5Reg`) as before the call. -/
theorem moreBytes_bookkeeping (process : Predecoder → Option Predecoder)
    (s : Predecoder) (pc : PCState) (fetchPC data : Nat) :
    moreBytes process s pc fetchPC data = process (moreBytesEntry s pc fetchPC data) ∧
    needMoreBytes (moreBytesEntry s pc fetchPC data) = false ∧
    (moreBytesEntry s pc fetchPC data).basePC = fetchPC ∧
    (moreBytesEntry s pc fetchPC data).fetchChunk = data ∧
    (moreBytesEntry s pc fetchPC data).origPC = s.origPC ∧
    (moreBytesEntry s pc fetchPC data).state = s.state ∧
    (moreBytesEntry s pc fetchPC data).emiIsReady = s.emiIsReady ∧
    (moreBytesEntry s pc fetchPC data).emi = s.emi ∧
    (moreBytesEntry s pc fetchPC data).displacementSize = s.displacementSize ∧
    (moreBytesEntry s pc fetchPC data).immediateSize = s.immediateSize ∧
    (moreBytesEntry s pc fetchPC data).immediateCollected = s.immediateCollected ∧
    (moreBytesEntry s pc fetchPC data).tc = s.tc ∧
    (moreBytesEntry s pc fetchPC data).m5Reg = s.m5Reg :=
  ⟨rfl, rfl, rfl, rfl, rfl, rfl, rfl, rfl, rfl, rfl, rfl, rfl, rfl⟩

/-- Counterexample to C7 as stated: a target address 100 bytes past the chunk
address satisfies `targetAddr >= chunkAddr`, and the decode loop is invoked with
the cursor at 100, beyond the chunk width 8. -/
theorem moreBytes_cursor_beyond_chunk :
    (0 : Nat) ≤ (PCState.mk 100 0 0).instAddr ∧
    (moreBytesEntry (sessionAt 0 0) ⟨100, 0, 0⟩ 0 0).offset = 100 ∧
    ¬ ((moreBytesEntry (sessionAt 0 0) ⟨100, 0, 0⟩ 0 0).offset ≤ sizeofMachInst) := by
  decide

/-- C7, amended (cursor invariant at chunk supply). For every `moreBytes` call
whose target address lies in the chunk or at its end,
`fetchPC <= pc.instAddr() <= fetchPC + chunkWidth`, the cursor handed to the
decode loop satisfies `0 <= offset <= chunkWidth`. -/
theorem moreBytes_cursor_in_chunk (process : Predecoder → Option Predecoder)
    (s : Predecoder) (pc : PCState) (fetchPC data : Nat)
    (hge : fetchPC ≤ pc.instAddr) (hle : (pc.instAddr : Int) ≤ fetchPC + sizeofMachInst) :
    moreBytes process s pc fetchPC data = process (moreBytesEntry s pc fetchPC data) ∧
    0 ≤ (moreBytesEntry s pc fetchPC data).offset ∧
    (moreBytesEntry s pc fetchPC data).offset ≤ sizeofMachInst := by
  refine ⟨rfl, ?_⟩
  unfold sizeofMachInst at *
  simp only [moreBytesEntry]
  split
  · omega
  · rw [toInt32_toUInt64, toInt32_of_range _ (by omega) (by omega)]
    omega

/-- Witness for C7, amended: the target `0x1003` in the chunk at `0x1000`. -/
theorem moreBytes_cursor_in_chunk_witness :
    (moreBytesEntry (sessionAt 0 0) ⟨0x1003, 0, 0⟩ 0x1000 0x05B0).offset = 3 ∧
    0 ≤ (moreBytesEntry (sessionAt 0 0) ⟨0x1003, 0, 0⟩ 0x1000 0x05B0).offset ∧
    (moreBytesEntry (sessionAt 0 0) ⟨0x1003, 0, 0⟩ 0x1000 0x05B0).offset ≤ sizeofMachInst :=
  ⟨by decide, (moreBytes_cursor_in_chunk some (sessionAt 0 0) ⟨0x1003, 0, 0⟩ 0x1000 0x05B0
    (by decide) (by decide)).2⟩

/-- Counterexample to C8 as stated: with the chunk at address 0 and the target at
`2 ^ 32`, the chunk address precedes the target, and the cursor is 0, not the
difference `2 ^ 32`: the difference is stored in the `int` cursor. -/
theorem moreBytes_offset_truncated :
    (0 : Nat) ≤ (PCState.mk 4294967296 0 0).instAddr ∧
    (moreBytesEntry (sessionAt 0 0) ⟨4294967296, 0, 0⟩ 0 0).offset = 0 ∧
    (moreBytesEntry (sessionAt 0 0) ⟨4294967296, 0, 0⟩ 0 0).offset
      ≠ (((PCState.mk 4294967296 0 0).instAddr - 0 : Nat) : Int) := by
  decide

/-- C8, amended (cursor computation of `moreBytes`). For all addresses, the cursor
on which the decode loop is invoked is the difference `pc.instAddr() - fetchPC`
truncated to the 32-bit `int` cursor when `fetchPC <= pc.instAddr()`, hence that
difference itself whenever it is below `2 ^ 31`, and 0 when
`fetchPC > pc.instAddr()`. -/
theorem moreBytes_offset_value (process : Predecoder → Option Predecoder)
    (s : Predecoder) (pc : PCState) (fetchPC data : Nat) :
    moreBytes process s pc fetchPC data = process (moreBytesEntry s pc fetchPC data) ∧
    (fetchPC ≤ pc.instAddr →
      (moreBytesEntry s pc fetchPC data).offset
        = toInt32 ((pc.instAddr - fetchPC : Nat) : Int)) ∧
    (fetchPC ≤ pc.instAddr → pc.instAddr - fetchPC < 2 ^ 31 →
      (moreBytesEntry s pc fetchPC data).offset = ((pc.instAddr - fetchPC : Nat) : Int)) ∧
    (fetchPC > pc.instAddr → (moreBytesEntry s pc fetchPC data).offset = 0) := by
  have key : fetchPC ≤ pc.instAddr →
      (moreBytesEntry s pc fetchPC data).offset
        = toInt32 ((pc.instAddr - fetchPC : Nat) : Int) := by
    intro h
    simp only [moreBytesEntry]
    split
    · have : pc.instAddr - fetchPC = 0 := by omega
      rw [this]; rfl
    · rw [toInt32_toUInt64]
      congr 1
      omega
  refine ⟨rfl, key, ?_, ?_⟩
  · intro h hlt
    rw [key h, toInt32_of_range _ (by omega) (by omega)]
  · intro h
    simp only [moreBytesEntry]
    rw [if_pos (by omega)]

/-- Witness for C8, amended: the target `0x1003` in the chunk at `0x1000` gives
the cursor 3, and a chunk fetched past the target gives the cursor 0. -/
theorem moreBytes_offset_value_witness :
    (moreBytesEntry (sessionAt 0 0) ⟨0x1003, 0, 0⟩ 0x1000 0).offset = ((3 : Nat) : Int) ∧
    (moreBytesEntry (sessionAt 0 5) ⟨0x1003, 0, 0⟩ 0x1008 0).offset = 0 :=
  ⟨(moreBytes_offset_value some (sessionAt 0 0) ⟨0x1003, 0, 0⟩ 0x1000 0).2.2.1
      (by decide) (by decide),
    (moreBytes_offset_value some (sessionAt 0 5) ⟨0x1003, 0, 0⟩ 0x1008 0).2.2.2 (by decide)⟩

/-! ## Exhaustion of the chunk -/

/-- Counterexample to C5 as stated: a 4-byte field collected from cursor 4 ends
exactly at the end of the chunk. The call starts with `outOfBytes` false,
`0 <= offset < chunkWidth` and `0 <= collected < size`; afterwards the field is
complete (`collected = size`) and `needMoreBytes()` is true all the same. -/
theorem needMoreBytes_with_complete_field :
    (sessionAt 0 4).outOfBytes = false ∧
    0 ≤ (sessionAt 0 4).offset ∧ (sessionAt 0 4).offset < sizeofMachInst ∧
    ∃ r, getImmediate (sessionAt 0 4) 0 0 4 = some r ∧
      ¬ (needMoreBytes r.1 = true ↔ r.2.1 < 4) := by
  refine ⟨by decide, by decide, by decide,
    ({ sessionAt 0 4 with offset := 8, outOfBytes := true }, 4, 0), by decide, by decide⟩

/-- C5, amended (when the accumulator asks for more bytes). For every call of
`getImmediate` started with `outOfBytes` false, `0 <= offset < chunkWidth` and
`0 <= collected < size`, the call succeeds and `needMoreBytes()` is true afterwards
if and only if the cursor has reached the chunk width, that is if and only if the
bytes still missing were at least the bytes left in the chunk
(`size - collected >= chunkWidth - offset`). In particular, if the field is still
incomplete afterwards (`collected < size`), then `needMoreBytes()` is true. -/
theorem getImmediate_needMoreBytes (s : Predecoder) (collected : Int) (current : Nat)
    (size : Int) (hout : s.outOfBytes = false)
    (h0 : 0 ≤ s.offset) (h8 : s.offset < sizeofMachInst)
    (_hc0 : 0 ≤ collected) (hcs : collected < size) :
    ∃ r, getImmediate s collected current size = some r ∧
      (needMoreBytes r.1 = true ↔ r.1.offset = sizeofMachInst) ∧
      (needMoreBytes r.1 = true ↔ sizeofMachInst - s.offset ≤ size - collected) ∧
      (r.2.1 < size → needMoreBytes r.1 = true) := by
  refine ⟨_, getImmediate_step s collected current size h0 (le_of_lt h8) (le_of_lt hcs), ?_⟩
  unfold sizeofMachInst at *
  simp only [needMoreBytes, hout]
  refine ⟨?_, ?_, ?_⟩
  · split <;> simp_all
  · split
    · simp only [true_iff]; omega
    · simp only [Bool.false_eq_true, false_iff]; omega
  · intro h
    rw [if_pos (by omega)]

/-- Witness for C5, amended: of a 4-byte immediate collected from cursor 6 only two
bytes fit in the chunk: two bytes are collected and `needMoreBytes()` is true. -/
theorem getImmediate_needMoreBytes_witness :
    ∃ r, getImmediate (sessionAt 0x3412000000000000 6) 0 0 4 = some r ∧
      r.2.1 = 2 ∧ needMoreBytes r.1 = true := by
  obtain ⟨r, h, _, _, himp⟩ := getImmediate_needMoreBytes
    (sessionAt 0x3412000000000000 6) 0 0 4 rfl (by decide) (by decide) (by decide)
    (by decide)
  have h2 : getImmediate (sessionAt 0x3412000000000000 6) 0 0 4
      = some ({ sessionAt 0x3412000000000000 6 with offset := 8, outOfBytes := true },
          2, 0x3412) := by decide
  rw [h2] at h
  cases h
  exact ⟨_, h2, rfl, himp (by decide)⟩

/-- C6 (no over-read). For a session with `0 <= offset <= chunkWidth` and a call of
`getImmediate` with `0 <= collected <= size`, the assertion
`offset <= chunkWidth` inside `consumeBytes` holds: the call succeeds and the
cursor stays within `0 .. chunkWidth`. And for each of `consumeByte`,
`consumeBytes` and `getImmediate`, started with `outOfBytes` false, whenever the
assertion passes, `outOfBytes` is true afterwards exactly when the cursor equals
`chunkWidth` afterwards. -/
theorem cursor_no_over_read (s : Predecoder) (collected : Int) (current : Nat)
    (size numBytes : Int) :
    (0 ≤ s.offset → s.offset ≤ sizeofMachInst → 0 ≤ collected → collected ≤ size →
      ∃ r, getImmediate s collected current size = some r ∧
        0 ≤ r.1.offset ∧ r.1.offset ≤ sizeofMachInst) ∧
    (s.outOfBytes = false →
      (∀ s1, consumeByte s = some s1 →
        (needMoreBytes s1 = true ↔ s1.offset = sizeofMachInst)) ∧
      (∀ s1, consumeBytes s numBytes = some s1 →
        (needMoreBytes s1 = true ↔ s1.offset = sizeofMachInst)) ∧
      (∀ r, getImmediate s collected current size = some r →
        (needMoreBytes r.1 = true ↔ r.1.offset = sizeofMachInst))) := by
  have hcb : ∀ (n : Int) (s1 : Predecoder), s.outOfBytes = false →
      consumeBytes s n = some s1 →
      (needMoreBytes s1 = true ↔ s1.offset = sizeofMachInst) := by
    intro n s1 hout h
    unfold consumeBytes at h
    simp only at h
    split at h
    · cases h
      simp only [needMoreBytes, hout]
      split <;> simp_all
    · cases h
  refine ⟨?_, fun hout => ⟨?_, fun s1 h => hcb numBytes s1 hout h, ?_⟩⟩
  · intro h0 h8 _ hcs
    refine ⟨_, getImmediate_step s collected current size h0 h8 hcs, ?_⟩
    unfold sizeofMachInst at *
    simp only
    omega
  · intro s1 h
    exact hcb 1 s1 hout h
  · intro r h
    unfold getImmediate at h
    simp only [Option.map_eq_some'] at h
    obtain ⟨s1, hs1, rfl⟩ := h
    exact hcb _ s1 hout hs1

/-- Witness for C6: a 4-byte field collected from cursor 6 stops at the chunk
width 8 with `needMoreBytes()` true, and one byte consumed from cursor 6 leaves the
cursor at 7 with `needMoreBytes()` false. -/
theorem cursor_no_over_read_witness :
    (∃ r, getImmediate (sessionAt 0 6) 0 0 4 = some r ∧
      0 ≤ r.1.offset ∧ r.1.offset ≤ sizeofMachInst) ∧
    (needMoreBytes { sessionAt 0 6 with offset := 7 } = true
      ↔ ({ sessionAt 0 6 with offset := 7 } : Predecoder).offset = sizeofMachInst) :=
  ⟨(cursor_no_over_read (sessionAt 0 6) 0 0 4 1).1 (by decide) (by decide) (by decide)
      (by decide),
    ((cursor_no_over_read (sessionAt 0 6) 0 0 4 1).2 rfl).1 _ (by decide)⟩

/-! ## Retrieval: shared facts -/

theorem getExtMachInst_eq_none_iff (s : Predecoder) (nextPC : PCState) :
    getExtMachInst s nextPC = none ↔ s.emiIsReady = false := by
  unfold getExtMachInst
  cases s.emiIsReady <;> by_cases hz : nextPC.size = 0 <;> simp [hz]

theorem getExtMachInst_clears (s : Predecoder) (nextPC : PCState)
    (r : ExtMachInst × Predecoder × PCState) (hr : getExtMachInst s nextPC = some r) :
    r.2.1.emiIsReady = false := by
  unfold getExtMachInst at hr
  cases hre : s.emiIsReady
  · simp [hre] at hr
  · by_cases hz : nextPC.size = 0
    · simp only [hre, hz, if_true, Option.some.injEq] at hr
      rw [← hr]
    · simp only [hre, hz, if_true, if_false, Option.some.injEq] at hr
      rw [← hr]

/-! ## Retrieval frame and readiness -/

/-- C11 (retrieval frame). Every successful `getExtMachInst` returns exactly the
record `emi` of the session and leaves the session as it was except for
`emiIsReady`, which is false afterwards: `emi`, `state`, `offset`, `basePC`,
`origPC`, `outOfBytes`, `fetchChunk` and the counters are unchanged. On a ready
session whose program-counter-state already carries a non-zero size the call
succeeds and returns that program-counter-state unchanged. -/
theorem getExtMachInst_frame (s : Predecoder) (nextPC : PCState) :
    (∀ r, getExtMachInst s nextPC = some r →
      r.1 = s.emi ∧ r.2.1 = { s with emiIsReady := false } ∧
      r.2.1.emi = s.emi ∧ r.2.1.state = s.state ∧ r.2.1.offset = s.offset ∧
      r.2.1.basePC = s.basePC ∧ r.2.1.origPC = s.origPC ∧
      r.2.1.outOfBytes = s.outOfBytes ∧ r.2.1.fetchChunk = s.fetchChunk ∧
      r.2.1.displacementSize = s.displacementSize ∧
      r.2.1.immediateSize = s.immediateSize ∧
      r.2.1.immediateCollected = s.immediateCollected ∧
      r.2.1.tc = s.tc ∧ r.2.1.m5Reg = s.m5Reg ∧
      (nextPC.size ≠ 0 → r.2.2 = nextPC)) ∧
    (extMachInstReady s = true → nextPC.size ≠ 0 →
      getExtMachInst s nextPC = some (s.emi, { s with emiIsReady := false }, nextPC)) := by
  have hne : extMachInstReady s = true → nextPC.size ≠ 0 →
      getExtMachInst s nextPC = some (s.emi, { s with emiIsReady := false }, nextPC) := by
    intro hready hsz
    unfold extMachInstReady at hready
    simp only [getExtMachInst, hready, hsz, if_true, if_false]
  refine ⟨?_, hne⟩
  intro r hr
  have h1 : r.1 = s.emi ∧ r.2.1 = { s with emiIsReady := false } ∧
      (nextPC.size ≠ 0 → r.2.2 = nextPC) := by
    unfold getExtMachInst at hr
    cases hre : s.emiIsReady
    · simp [hre] at hr
    · by_cases hz : nextPC.size = 0
      · simp only [hre, hz, if_true, Option.some.injEq] at hr
        rw [← hr]
        exact ⟨rfl, rfl, fun h => absurd hz h⟩
      · simp only [hre, hz, if_true, if_false, Option.some.injEq] at hr
        rw [← hr]
        exact ⟨rfl, rfl, fun _ => rfl⟩
  obtain ⟨ha, hb, hc⟩ := h1
  refine ⟨ha, hb, ?_, ?_, ?_, ?_, ?_, ?_, ?_, ?_, ?_, ?_, ?_, ?_, hc⟩ <;> rw [hb]

/-- Witness for C11: a ready session and a program-counter-state that already
carries size 2: retrieval returns the record and the program-counter-state as
they are and only clears `emiIsReady`. -/
theorem getExtMachInst_frame_witness :
    getExtMachInst { sessionAt 0x05B0 2 with emiIsReady := true } ⟨0x1000, 0x1002, 2⟩
      = some (emiZero, { sessionAt 0x05B0 2 with emiIsReady := false },
          ⟨0x1000, 0x1002, 2⟩) :=
  (getExtMachInst_frame { sessionAt 0x05B0 2 with emiIsReady := true }
    ⟨0x1000, 0x1002, 2⟩).2 rfl (by decide)

/-- C12 (idempotent completion). `extMachInstReady()` returns `emiIsReady` and
leaves the session as it is, so after any number of consecutive calls the session
is unchanged and every call returns the same value. Among the operations of the
header (`reset`, `reset(old_emi)`, `getTC`, `setTC`, `needMoreBytes`,
`extMachInstReady`, `getInstSize`, `consumeByte`, `consumeBytes`, `getImmediate`,
`getExtMachInst`) every one but `getExtMachInst` leaves `emiIsReady` as it was,
so a call that takes `emiIsReady` from true to false is a `getExtMachInst`; and
`getExtMachInst` on a ready session does take it from true to false. -/
theorem extMachInstReady_idempotent (s : Predecoder) :
    extMachInstReady s = s.emiIsReady ∧
    Method.after s Method.extMachInstReady = some s ∧
    (∀ n, Method.afterCalls Method.extMachInstReady n s = some s) ∧
    (∀ m s1, Method.after s m = some s1 →
      (∀ nextPC, m ≠ Method.getExtMachInst nextPC) → s1.emiIsReady = s.emiIsReady) ∧
    (∀ m s1, Method.after s m = some s1 → s.emiIsReady = true → s1.emiIsReady = false →
      ∃ nextPC, m = Method.getExtMachInst nextPC) ∧
    (∀ nextPC, s.emiIsReady = true →
      ∃ s1, Method.after s (Method.getExtMachInst nextPC) = some s1 ∧
        s1.emiIsReady = false) := by
  have hcb : ∀ (n : Int) (s1 : Predecoder), consumeBytes s n = some s1 →
      s1.emiIsReady = s.emiIsReady := by
    intro n s1 h
    unfold consumeBytes at h
    simp only at h
    split at h
    · cases h; rfl
    · cases h
  have hkeep : ∀ m s1, Method.after s m = some s1 →
      (∀ nextPC, m ≠ Method.getExtMachInst nextPC) → s1.emiIsReady = s.emiIsReady := by
    intro m s1 h hm
    cases m with
    | reset => simp only [Method.after, Option.some.injEq] at h; rw [← h]; rfl
    | resetWith e => simp only [Method.after, Option.some.injEq] at h; rw [← h]; rfl
    | getTC => simp only [Method.after, Option.some.injEq] at h; rw [← h]
    | setTC tc => simp only [Method.after, Option.some.injEq] at h; rw [← h]; rfl
    | needMoreBytes => simp only [Method.after, Option.some.injEq] at h; rw [← h]
    | extMachInstReady => simp only [Method.after, Option.some.injEq] at h; rw [← h]
    | getInstSize => simp only [Method.after, Option.some.injEq] at h; rw [← h]
    | consumeByte => exact hcb 1 s1 h
    | consumeBytes n => exact hcb n s1 h
    | getImmediate c cur size =>
      simp only [Method.after, getImmediate, Option.map_map, Option.map_eq_some'] at h
      obtain ⟨s2, hs2, rfl⟩ := h
      exact hcb _ s2 hs2
    | getExtMachInst nextPC => exact absurd rfl (hm nextPC)
  refine ⟨rfl, rfl, ?_, hkeep, ?_, ?_⟩
  · intro n
    induction n with
    | zero => rfl
    | succ n ih => simp only [Method.afterCalls, Method.after, Option.some_bind, ih]
  · intro m s1 h ht hf
    by_cases hm : ∃ nextPC, m = Method.getExtMachInst nextPC
    · exact hm
    · have hk := hkeep m s1 h (fun nextPC he => hm ⟨nextPC, he⟩)
      rw [ht, hf] at hk
      cases hk
  · intro nextPC ht
    cases h : getExtMachInst s nextPC with
    | none =>
      have hn := (getExtMachInst_eq_none_iff s nextPC).mp h
      rw [ht] at hn
      cases hn
    | some r =>
      exact ⟨r.2.1, by simp only [Method.after, h, Option.map_some'],
        getExtMachInst_clears s nextPC r h⟩

/-- Witness for C12: on a ready session `extMachInstReady()` is true, three
consecutive calls leave the session as it is, and a retrieval clears
`emiIsReady`. -/
theorem extMachInstReady_idempotent_witness :
    extMachInstReady { sessionAt 0x05B0 2 with emiIsReady := true } = true ∧
    Method.afterCalls Method.extMachInstReady 3
        { sessionAt 0x05B0 2 with emiIsReady := true }
      = some { sessionAt 0x05B0 2 with emiIsReady := true } ∧
    ∃ s1, Method.after { sessionAt 0x05B0 2 with emiIsReady := true }
        (Method.getExtMachInst ⟨0x1000, 0, 0⟩) = some s1 ∧ s1.emiIsReady = false :=
  ⟨(extMachInstReady_idempotent { sessionAt 0x05B0 2 with emiIsReady := true }).1,
    (extMachInstReady_idempotent { sessionAt 0x05B0 2 with emiIsReady := true }).2.2.1 3,
    (extMachInstReady_idempotent { sessionAt 0x05B0 2 with emiIsReady := true }).2.2.2.2.2
      ⟨0x1000, 0, 0⟩ rfl⟩

/-! ## Reset -/

/-- C13 (reset keeps the bookkeeping). For every session state, after `reset()`
the state of the state machine is the initial `ResetState`, and `fetchChunk`,
`basePC`, `offset`, `origPC`, `outOfBytes` and `emiIsReady` have the values they
had before the call. -/
theorem reset_keeps_bookkeeping (s : Predecoder) :
    (reset s).state = State.ResetState ∧
    (reset s).fetchChunk = s.fetchChunk ∧
    (reset s).basePC = s.basePC ∧
    (reset s).offset = s.offset ∧
    (reset s).origPC = s.origPC ∧
    (reset s).outOfBytes = s.outOfBytes ∧
    (reset s).emiIsReady = s.emiIsReady :=
  ⟨rfl, rfl, rfl, rfl, rfl, rfl, rfl⟩

/-- C14 (the two forms of reset agree). For every session state and every argument
record, the state after `reset(old_emi)` is the state after `reset()`; the result
is the same for any two argument records. -/
theorem resetWith_eq_reset (s : Predecoder) (old_emi other_emi : ExtMachInst) :
    resetWith s old_emi = reset s ∧ resetWith s old_emi = resetWith s other_emi :=
  ⟨rfl, rfl⟩

/-- Counterexample to C15 as stated: a session in the middle of collecting an
immediate (`immediateCollected = 2`, partial immediate `0x3412`, displacement
`0x7f`); after `reset()` the counter is still 2 and the partial immediate and the
displacement are still in the record: none of them is cleared. -/
theorem reset_keeps_partial_fields :
    0 < sessionCollecting.immediateCollected ∧
    sessionCollecting.emi.immediate ≠ 0 ∧ sessionCollecting.emi.displacement ≠ 0 ∧
    (reset sessionCollecting).immediateCollected = 2 ∧
    (reset sessionCollecting).emi.immediate = 0x3412 ∧
    (reset sessionCollecting).emi.displacement = 0x7f ∧
    ¬ ((reset sessionCollecting).immediateCollected = 0 ∧
        (reset sessionCollecting).emi.immediate = 0 ∧
        (reset sessionCollecting).emi.displacement = 0) := by
  decide

/-- C15, amended (what reset does to the instruction in flight). For every session
state, also one in the middle of collecting a displacement or immediate,
`reset()` abandons the instruction in flight by re-entering the initial
`ResetState` and nothing else: the counter `immediateCollected`, the sizes
`displacementSize` and `immediateSize` and the whole record `emi`, with its
partially collected displacement and immediate, are as they were before the
call. -/
theorem reset_only_reenters_initial_state (s : Predecoder) :
    reset s = { s with state := State.ResetState } ∧
    (reset s).state = State.ResetState ∧
    (reset s).immediateCollected = s.immediateCollected ∧
    (reset s).displacementSize = s.displacementSize ∧
    (reset s).immediateSize = s.immediateSize ∧
    (reset s).emi = s.emi ∧
    (reset s).emi.displacement = s.emi.displacement ∧
    (reset s).emi.immediate = s.emi.immediate :=
  ⟨rfl, rfl, rfl, rfl, rfl, rfl, rfl, rfl⟩

/-! ## The accumulator step -/

theorem masked_shift_lt (a t c : Nat) (h : t + c ≤ 8) :
    (a &&& (2 ^ (8 * t) - 1)) <<< (8 * c) < 2 ^ 64 := by
  rw [Nat.and_pow_two_sub_one_eq_mod, Nat.shiftLeft_eq]
  calc a % 2 ^ (8 * t) * 2 ^ (8 * c) < 2 ^ (8 * t) * 2 ^ (8 * c) :=
        Nat.mul_lt_mul_of_pos_right (Nat.mod_lt _ (by positivity)) (by positivity)
    _ = 2 ^ (8 * t + 8 * c) := (pow_add _ _ _).symm
    _ ≤ 2 ^ 64 := Nat.pow_le_pow_right (by norm_num) (by omega)

/-- The step formula of the accumulator for the call shape the decoder uses, in
which the caller-supplied `collected` is the member `immediateCollected`: with
`0 <= offset <= chunkWidth` and `0 <= collected <= size <= 8`, `getImmediate`
takes `toGet = min(size - collected, chunkWidth - offset)` bytes, sets `current`
to `current OR (((fetchChunk >> (offset*8)) AND (2^(toGet*8) - 1)) <<
(collected*8))`, and advances `collected` and the cursor by `toGet`. -/
theorem getImmediate_formula_on_counter (s : Predecoder) (collected : Int) (current : Nat)
    (size : Int) (h0 : 0 ≤ s.offset) (h8 : s.offset ≤ sizeofMachInst)
    (hc0 : 0 ≤ collected) (hcs : collected ≤ size) (hs8 : size ≤ 8)
    (hic : s.immediateCollected = collected) :
    getImmediate s collected current size =
      some ({ s with
              offset := s.offset + min (size - collected) (sizeofMachInst - s.offset),
              outOfBytes :=
                if s.offset + min (size - collected) (sizeofMachInst - s.offset)
                    = sizeofMachInst
                then true else s.outOfBytes },
            collected + min (size - collected) (sizeofMachInst - s.offset),
            current |||
              (s.fetchChunk >>> (s.offset * 8).toNat
                  &&& (2 ^ (min (size - collected) (sizeofMachInst - s.offset) * 8).toNat - 1))
                <<< (collected * 8).toNat) := by
  rw [getImmediate_step s collected current size h0 h8 hcs, hic]
  have ht : (min (size - collected) (sizeofMachInst - s.offset) * 8).toNat
      = 8 * (min (size - collected) (sizeofMachInst - s.offset)).toNat := by
    unfold sizeofMachInst at *; omega
  have hc : (collected * 8).toNat = 8 * collected.toNat := by omega
  have hsum : (min (size - collected) (sizeofMachInst - s.offset)).toNat
      + collected.toNat ≤ 8 := by
    unfold sizeofMachInst at *; omega
  have hlt := masked_shift_lt (s.fetchChunk >>> (s.offset * 8).toNat) _ _ hsum
  unfold mask
  rw [ht, hc, Nat.mod_eq_of_lt hlt]

/-- C16 (accumulator step formula). For every session state with
`0 <= offset <= chunkWidth` and every caller-supplied `(collected, current, size)`
with `0 <= collected <= size <= 8`, where the reference `collected` is the
session's running count `immediateCollected` (the counter the decoder passes for
both the displacement and the immediate): `getImmediate` computes
`toGet = min(size - collected, chunkWidth - offset)`, sets `current` to
`current OR (((fetchChunk >> (offset*8)) AND (2^(toGet*8) - 1)) << (collected*8))`
with `collected` the running count before the call, and advances both `collected`
and the cursor by `toGet`; the advance of `collected` is the advance of the
member `immediateCollected` it refers to. -/
theorem getImmediate_step_formula (s : Predecoder) (collected : Int) (current : Nat)
    (size : Int) (h0 : 0 ≤ s.offset) (h8 : s.offset ≤ sizeofMachInst)
    (hc0 : 0 ≤ collected) (hcs : collected ≤ size) (hs8 : size ≤ 8)
    (hic : s.immediateCollected = collected) :
    getImmediateToGet s collected size
      = min (size - collected) (sizeofMachInst - s.offset) ∧
    getImmediate s collected current size =
      some ({ s with
              offset := s.offset + getImmediateToGet s collected size,
              outOfBytes :=
                if s.offset + getImmediateToGet s collected size = sizeofMachInst
                then true else s.outOfBytes },
            collected + getImmediateToGet s collected size,
            current |||
              (s.fetchChunk >>> (s.offset * 8).toNat
                  &&& (2 ^ (getImmediateToGet s collected size * 8).toNat - 1))
                <<< (collected * 8).toNat) ∧
    getImmediateOnCounter s current size =
      some ({ s with
              offset := s.offset + getImmediateToGet s collected size,
              outOfBytes :=
                if s.offset + getImmediateToGet s collected size = sizeofMachInst
                then true else s.outOfBytes,
              immediateCollected := collected + getImmediateToGet s collected size },
            current |||
              (s.fetchChunk >>> (s.offset * 8).toNat
                  &&& (2 ^ (getImmediateToGet s collected size * 8).toNat - 1))
                <<< (collected * 8).toNat) := by
  have ht := getImmediateToGet_eq s collected size h0 h8
  have hg := getImmediate_formula_on_counter s collected current size h0 h8 hc0 hcs hs8 hic
  rw [ht]
  refine ⟨rfl, hg, ?_⟩
  unfold getImmediateOnCounter
  rw [hic, hg]
  rfl

/-- Witness for C16: a session with one byte `12` of a 2-byte field collected
(`immediateCollected = 1`, value `0x12`) on the chunk `AB 00 ...` at cursor 0:
the call takes `toGet = 1` byte, shifts it by 8 bits and returns the value
`0xAB12`, with `collected = 2` and the cursor at 1. -/
theorem getImmediate_step_formula_witness :
    getImmediate { sessionAt 0xAB 0 with immediateCollected := 1 } 1 0x12 2
      = some ({ sessionAt 0xAB 0 with offset := 1, immediateCollected := 1 }, 2, 0xAB12) ∧
    getImmediateOnCounter { sessionAt 0xAB 0 with immediateCollected := 1 } 0x12 2
      = some ({ sessionAt 0xAB 0 with offset := 1, immediateCollected := 2 }, 0xAB12) := by
  obtain ⟨ht, hg, ho⟩ := getImmediate_step_formula
    { sessionAt 0xAB 0 with immediateCollected := 1 } 1 0x12 2
    (by decide) (by decide) (by decide) (by decide) (by decide) rfl
  have e : getImmediateToGet { sessionAt 0xAB 0 with immediateCollected := 1 } 1 2 = 1 := by
    decide
  rw [e] at hg ho
  exact ⟨hg, ho⟩

theorem getImmediate_completes_from_zero (s1 : Predecoder) (collected : Int) (current : Nat)
    (size : Int) (hoff : s1.offset = 0) (hcs : collected ≤ size)
    (hrem : size - collected ≤ 8) :
    ∃ r2, getImmediate s1 collected current size = some r2 ∧ r2.2.1 = size := by
  refine ⟨_, getImmediate_step s1 collected current size (by omega)
    (by unfold sizeofMachInst; omega) hcs, ?_⟩
  unfold sizeofMachInst
  simp only
  omega

/-- C17 (progress and bound of the accumulator). For every call of `getImmediate`
with `0 <= offset <= chunkWidth` and `0 <= collected <= size`, the call succeeds
and `collected` afterwards lies between `collected` before and `size`; if moreover
`offset < chunkWidth` and `collected < size`, `collected` strictly increases. Hence
a field of `size <= 8` is complete after at most two calls: when `moreBytes`
supplies a fresh chunk with cursor 0 after the first call, the second call, which
continues with the count and value of the first, ends with `collected = size`. -/
theorem getImmediate_progress (s : Predecoder) (collected : Int) (current : Nat)
    (size : Int) (h0 : 0 ≤ s.offset) (h8 : s.offset ≤ sizeofMachInst)
    (hc0 : 0 ≤ collected) (hcs : collected ≤ size) :
    ∃ r, getImmediate s collected current size = some r ∧
      collected ≤ r.2.1 ∧ r.2.1 ≤ size ∧
      (s.offset < sizeofMachInst → collected < size → collected < r.2.1) ∧
      (size ≤ 8 → ∀ (pc : PCState) (fetchPC data : Nat), pc.instAddr ≤ fetchPC →
        ∃ r2, getImmediate (moreBytesEntry r.1 pc fetchPC data) r.2.1 r.2.2 size = some r2 ∧
          r2.2.1 = size) := by
  refine ⟨_, getImmediate_step s collected current size h0 h8 hcs, ?_, ?_, ?_, ?_⟩
  · unfold sizeofMachInst at *; simp only; omega
  · unfold sizeofMachInst at *; simp only; omega
  · unfold sizeofMachInst at *; simp only; omega
  · intro hs8 pc fetchPC data hpc
    apply getImmediate_completes_from_zero
    · simp only [moreBytesEntry]
      rw [if_pos hpc]
    · unfold sizeofMachInst at *; simp only; omega
    · unfold sizeofMachInst at *; simp only; omega

/-- Witness for C17: a 4-byte immediate collected from cursor 6: the first call
collects two bytes, and the second call on the chunk supplied at `0x1008` with
cursor 0 completes the field. -/
theorem getImmediate_progress_witness :
    ∃ r, getImmediate (sessionAt 0x3412000000000000 6) 0 0 4 = some r ∧
      0 ≤ r.2.1 ∧ r.2.1 ≤ 4 ∧
      ((sessionAt 0x3412000000000000 6).offset < sizeofMachInst → (0 : Int) < 4 →
        0 < r.2.1) ∧
      ((4 : Int) ≤ 8 → ∀ (pc : PCState) (fetchPC data : Nat), pc.instAddr ≤ fetchPC →
        ∃ r2, getImmediate (moreBytesEntry r.1 pc fetchPC data) r.2.1 r.2.2 4 = some r2 ∧
          r2.2.1 = 4) :=
  getImmediate_progress (sessionAt 0x3412000000000000 6) 0 0 4 (by decide) (by decide)
    (by decide) (by decide)

/-- C18 (no-op cases of the accumulator). For every session state with
`0 <= offset <= chunkWidth` and every call on a running count `collected <= size`
(the count of bytes collected of a field never exceeds its width): when the field
is already complete (`collected = size`, also for a zero-width field `size = 0`)
or the chunk is exhausted (`offset = chunkWidth`), `getImmediate` succeeds and
leaves the field value, `collected` and the cursor unchanged; the only member it
can change is `outOfBytes`, which it sets to true exactly when
`offset = chunkWidth`. -/
theorem getImmediate_noop (s : Predecoder) (collected : Int) (current : Nat) (size : Int)
    (h0 : 0 ≤ s.offset) (h8 : s.offset ≤ sizeofMachInst) (hcs : collected ≤ size)
    (hcase : collected = size ∨ s.offset = sizeofMachInst) :
    getImmediate s collected current size
      = some ({ s with
                outOfBytes := if s.offset = sizeofMachInst then true else s.outOfBytes },
              collected, current) := by
  have hmin : min (size - collected) (sizeofMachInst - s.offset) = 0 := by
    unfold sizeofMachInst at *; omega
  rw [getImmediate_step s collected current size h0 h8 hcs, hmin]
  have hm : mask (0 * 8) = 0 := by decide
  rw [hm, Nat.and_zero, Nat.zero_shiftLeft, Nat.zero_mod, Nat.or_zero, add_zero, add_zero]

/-- Witness for C18: a complete 4-byte field at cursor 2 and an exhausted chunk
with two of four bytes collected: in both cases the value, the count and the
cursor stay, and `outOfBytes` is set only for the exhausted chunk. -/
theorem getImmediate_noop_witness :
    getImmediate { sessionAt 0x05B0 2 with immediateCollected := 4 } 4 0x12345678 4
      = some ({ sessionAt 0x05B0 2 with immediateCollected := 4 }, 4, 0x12345678) ∧
    getImmediate { sessionAt 0x05B0 8 with immediateCollected := 2 } 2 0x3412 4
      = some ({ sessionAt 0x05B0 8 with immediateCollected := 2, outOfBytes := true },
          2, 0x3412) :=
  ⟨getImmediate_noop { sessionAt 0x05B0 2 with immediateCollected := 4 } 4 0x12345678 4
      (by decide) (by decide) (by decide) (Or.inl rfl),
    getImmediate_noop { sessionAt 0x05B0 8 with immediateCollected := 2 } 2 0x3412 4
      (by decide) (by decide) (by decide) (Or.inr rfl)⟩

/-! ## Construction -/

/-- C19 (initial session state). A freshly constructed `Predecoder`, whatever its
storage held before, reports `needMoreBytes() = true` and
`extMachInstReady() = false`, is in the initial `ResetState` with `offset = 0`,
`basePC = 0` and `origPC = 0`, so that `getInstSize() = 0`; `getExtMachInst` fails
on it for every program-counter-state, and still fails when a chunk has been
supplied by `moreBytes` and the decode loop has not yet completed an
instruction. -/
theorem new_session (mem : Predecoder) (tc : Nat) :
    needMoreBytes (Predecoder.new mem tc) = true ∧
    extMachInstReady (Predecoder.new mem tc) = false ∧
    (Predecoder.new mem tc).state = State.ResetState ∧
    (Predecoder.new mem tc).offset = 0 ∧
    (Predecoder.new mem tc).basePC = 0 ∧
    (Predecoder.new mem tc).origPC = 0 ∧
    getInstSize (Predecoder.new mem tc) = 0 ∧
    (∀ nextPC, getExtMachInst (Predecoder.new mem tc) nextPC = none) ∧
    (∀ pc fetchPC data nextPC,
      getExtMachInst (moreBytesEntry (Predecoder.new mem tc) pc fetchPC data) nextPC
        = none) := by
  refine ⟨rfl, rfl, rfl, rfl, rfl, rfl, ?_, ?_, ?_⟩
  · simp [getInstSize, Predecoder.new, toInt32, toUInt64]
  · intro nextPC
    exact (getExtMachInst_eq_none_iff _ nextPC).mpr rfl
  · intro pc fetchPC data nextPC
    exact (getExtMachInst_eq_none_iff _ nextPC).mpr rfl

end X86ISA
